import Mathlib

/-!
Shallow embedding of the `huffer` Huffman codec
(`src/huffer.cpp`, `src/input_bit_stream.h`, `src/output_bit_stream.h`).

Modelling conventions:
* Bytes are `Nat`s; a byte read from the source is reduced mod 256 exactly
  where the C++ does (`std::byte{uint8_t(ch & 0xff)}`).
* The C++ `uint64_t` counters (`total_size`, frequencies, weights) are
  modelled as `Nat`.  Every such counter is bounded by the input length, so
  wrap-around cannot occur for any input shorter than `2^64` bytes; the one
  place where the 64-bit width is observable (the `std::bitset<64>` written
  into the header) truncates to 64 bits by construction (`Nat.testBit i`
  for `i < 64`).
* The byte source / sink (`std::streambuf`) is a pure `List Nat`, so the
  underlying-I/O-error paths (`bad`) exist in the state but are never taken.
* Loops whose termination depends on a side condition (`symbol_size ≥ 1`)
  are written with an explicit fuel parameter; call sites pass fuel large
  enough that it is never exhausted, which the accompanying lemmas check.
* The iteration order of `std::unordered_map` and the tie-breaking of
  `std::priority_queue` are unspecified in C++; the embedding determinises
  them (first-encounter order for the map, first minimal element for the
  queue).  None of the verified properties depend on the determinisation.
-/

namespace Huffer

set_option maxRecDepth 100000

/-- Value of a bit string, least-significant bit first (bit `i` of the
result is element `i` of the list). -/
def bitsVal : List Bool → Nat
  | [] => 0
  | b :: bs => (cond b 1 0) + 2 * bitsVal bs

/-- The eight bits of a byte, least-significant first (`mask 0x01` up to
`mask 0x80`), the order in which `InputBitStream` delivers them. -/
def byteBits (b : Nat) : List Bool :=
  [b.testBit 0, b.testBit 1, b.testBit 2, b.testBit 3,
   b.testBit 4, b.testBit 5, b.testBit 6, b.testBit 7]

/-- All bits of a byte string in stream order: each byte contributes its
eight bits, least-significant first. -/
def bytesToBits (bs : List Nat) : List Bool :=
  (bs.map byteBits).flatten

/-- Pack a bit string into bytes, eight bits per byte, least-significant
first, the final partial byte padded with zero high-order bits.  This is
the net effect of `OutputBitStream` followed by its destructor. -/
def bitsToBytesP : List Bool → List Nat
  | b0 :: b1 :: b2 :: b3 :: b4 :: b5 :: b6 :: b7 :: rest =>
      bitsVal [b0, b1, b2, b3, b4, b5, b6, b7] :: bitsToBytesP rest
  | [] => []
  | bs => [bitsVal bs]

/-- State of `class InputBitStream` (src/input_bit_stream.h): the remaining
bytes of the `streambuf` source, the one-byte buffer `current`, the bit
position `mask` (a power of two, or 0 when the buffer is exhausted), and
the three status bits. -/
structure InputBitStream where
  source : List Nat
  current : Nat
  mask : Nat
  eofB : Bool
  failB : Bool
  badB : Bool
deriving DecidableEq, Repr

/-- The `InputBitStream` constructor: `current{0}, mask{0}`, all status
bits clear. -/
def InputBitStream.init (bytes : List Nat) : InputBitStream :=
  { source := bytes, current := 0, mask := 0,
    eofB := false, failB := false, badB := false }

/-- `InputBitStream::get(bool&)`: if `mask == 0`, pull the next byte from
the source (end of source sets `eof` and `fail`); otherwise extract the
bit `current & mask` and shift the mask left (the 8-bit `std::byte` shift
wraps `0x80` to `0`).  The pure source never throws, so the `bad` branch
of the C++ (`catch`) is never taken. -/
def InputBitStream.get (r : InputBitStream) : Option Bool × InputBitStream :=
  if r.mask = 0 then
    match r.source with
    | [] => (none, { r with eofB := true, failB := true })
    | b :: rest =>
        let c := b % 256
        (some (decide (c &&& 1 ≠ 0)),
          { r with source := rest, current := c, mask := 2 })
  else
    (some (decide (r.current &&& r.mask ≠ 0)),
      { r with mask := r.mask * 2 % 256 })

/-- `operator bool` of the stream is `!fail() && !bad()`; this is its
negation, the `!in` test used throughout `huffer.cpp`. -/
def InputBitStream.failed (r : InputBitStream) : Bool :=
  r.failB || r.badB

/-- Apply `get` `n` times, discarding the bits (used to state reachability
of stream states). -/
def InputBitStream.getN : Nat → InputBitStream → InputBitStream
  | 0, r => r
  | n + 1, r => InputBitStream.getN n (r.get).2

/-- Read all available bits in order, stopping at the first failed `get`.
The fuel argument only bounds the recursion; callers pass more fuel than
there are bits. -/
def InputBitStream.drain : Nat → InputBitStream → List Bool
  | 0, _ => []
  | fuel + 1, r =>
      match r.get with
      | (none, _) => []
      | (some b, r') => b :: InputBitStream.drain fuel r'

/-- Modelled from the spec: the byte-extraction operator
`operator>>(InputBitStream&, char&)` used by `huffer.cpp` (for tree-leaf
symbols and the trailing "extra") is not present under `src/`; §4.1 of the
spec specifies `get_byte()` as "read a full 8 bits, reassembled LSB-first
into a byte value".  Eight `get` calls are made unconditionally; after a
failure the remaining `get`s are no-ops on the exhausted stream. -/
def InputBitStream.readChar (r : InputBitStream) : Option Nat × InputBitStream :=
  let (b0, r) := r.get
  let (b1, r) := r.get
  let (b2, r) := r.get
  let (b3, r) := r.get
  let (b4, r) := r.get
  let (b5, r) := r.get
  let (b6, r) := r.get
  let (b7, r) := r.get
  match b0, b1, b2, b3, b4, b5, b6, b7 with
  | some v0, some v1, some v2, some v3, some v4, some v5, some v6, some v7 =>
      (some (bitsVal [v0, v1, v2, v3, v4, v5, v6, v7]), r)
  | _, _, _, _, _, _, _, _ => (none, r)

/-- `operator>>(InputBitStream&, Symbol&)`: read `symbol_size` bytes, one
`char` at a time; the caller checks the stream state afterwards, so the
result is `none` whenever any byte read failed. -/
def InputBitStream.readSymbol : Nat → InputBitStream → Option (List Nat) × InputBitStream
  | 0, r => (some [], r)
  | n + 1, r =>
      let (b, r) := r.readChar
      let (rest, r) := InputBitStream.readSymbol n r
      match b, rest with
      | some b, some rest => (some (b :: rest), r)
      | _, _ => (none, r)

/-- `operator>>(InputBitStream&, std::bitset<n>&)`: read `n` bits into bit
positions `0, 1, …` of the value, breaking out of the loop at the first
failure (the partially filled value is returned but the caller tests the
stream's state). -/
def InputBitStream.readBitsetGo : Nat → Nat → Nat → InputBitStream → Nat × InputBitStream
  | 0, _, acc, r => (acc, r)
  | n + 1, i, acc, r =>
      match r.get with
      | (none, r) => (acc, r)
      | (some b, r) => InputBitStream.readBitsetGo n (i + 1) (acc + cond b (2 ^ i) 0) r

/-- Read an `n`-bit field as `std::bitset<n>`, returning its numeric value
(`to_ullong`/`to_ulong`). -/
def InputBitStream.readBitset (n : Nat) (r : InputBitStream) : Nat × InputBitStream :=
  InputBitStream.readBitsetGo n 0 0 r

/-- State of `class OutputBitStream` (src/output_bit_stream.h): bytes
already emitted to the sink, the one-byte accumulator `current`, the bit
position `mask`, and the `bad` bit.  The pure sink never fails, so `bad`
is never set. -/
structure OutputBitStream where
  out : List Nat
  current : Nat
  mask : Nat
  badB : Bool
deriving DecidableEq, Repr

/-- The `OutputBitStream` constructor: `current{0}, mask{1}`. -/
def OutputBitStream.init : OutputBitStream :=
  { out := [], current := 0, mask := 1, badB := false }

/-- `OutputBitStream::flush_byte`: emit the accumulator unless it is empty
(`mask == 1`), then reset.  The pure sink's `sputc` always succeeds. -/
def OutputBitStream.flush_byte (w : OutputBitStream) : OutputBitStream :=
  if w.badB then w
  else if w.mask = 1 then w
  else { w with out := w.out ++ [w.current], current := 0, mask := 1 }

/-- `OutputBitStream::put`: flush first if the accumulator is full
(`mask == 0`), then set the current bit position if the bit is true and
shift the mask (the 8-bit shift wraps `0x80` to `0`). -/
def OutputBitStream.put (w : OutputBitStream) (b : Bool) : OutputBitStream :=
  if w.badB then w
  else
    let w := if w.mask = 0 then w.flush_byte else w
    let c := if b then w.current ||| w.mask else w.current
    { w with current := c, mask := w.mask * 2 % 256 }

/-- `operator<<(OutputBitStream&, char)`: write the eight bits of the byte
value, least-significant first.  The C++ loop's `&& stream` early exit is
redundant here because `put` is already a no-op on a bad stream. -/
def OutputBitStream.putChar (w : OutputBitStream) (c : Nat) : OutputBitStream :=
  (List.range 8).foldl (fun w i => w.put (c.testBit i)) w

/-- `operator<<` for `std::vector<bool>` / `std::bitset<n>`: emit the bits
in index order (same redundant `&& stream` note as `putChar`). -/
def OutputBitStream.putBits (w : OutputBitStream) (bs : List Bool) : OutputBitStream :=
  bs.foldl OutputBitStream.put w

/-- A `Symbol` (src/huffer.cpp): a fixed-size chunk of the input, exactly
`symbol_size` bytes; equality compares those bytes.  Modelled as the list
of its `symbol_size` byte values. -/
abbrev Symbol := List Nat

/-- `struct Symbols` (src/huffer.cpp): the per-symbol frequency map
(`info`, an association list in first-encounter order standing in for the
`std::unordered_map`), the trailing unencoded `extra`, and the input byte
count `total_size`. -/
structure Symbols where
  info : List (Symbol × Nat)
  extra : List Nat
  total_size : Nat
deriving DecidableEq, Repr

/-- `struct Node` (src/huffer.cpp): the discriminated union of a leaf
(weight and symbol) and an internal node (weight and two never-null
children).  The graphing-only `internal.id` field is omitted. -/
inductive Node where
  | leaf (weight : Nat) (symbol : Symbol)
  | internal (weight : Nat) (left : Node) (right : Node)
deriving DecidableEq, Repr

/-- The `weight` field common to both variants of `Node`. -/
def Node.weight : Node → Nat
  | .leaf w _ => w
  | .internal w _ _ => w

/-- Number of nodes of a tree (used only to bound deserialisation fuel). -/
def Node.size : Node → Nat
  | .leaf _ _ => 1
  | .internal _ l r => 1 + l.size + r.size

/-- Erase all weights (the deserialiser rebuilds every node with
`weight = 0`, preserving shape and leaf symbols only). -/
def Node.strip : Node → Node
  | .leaf _ s => .leaf 0 s
  | .internal _ l r => .internal 0 l.strip r.strip

/-- The leaf symbols of a tree in left-to-right order. -/
def Node.leavesList : Node → List Symbol
  | .leaf _ s => [s]
  | .internal _ l r => l.leavesList ++ r.leavesList

/-- Decidable check that every internal node's weight is the sum of its
children's weights. -/
def Node.weightsOk : Node → Bool
  | .leaf _ _ => true
  | .internal w l r =>
      (w == l.weight + r.weight) && l.weightsOk && r.weightsOk

/-- Decidable check that every leaf symbol has exactly `ss` bytes, each a
byte value (< 256). -/
def Node.symsOk (ss : Nat) : Node → Bool
  | .leaf _ s => (s.length == ss) && s.all (· < 256)
  | .internal _ l r => l.symsOk ss && r.symsOk ss

/-- Increment a symbol's frequency in the association list standing in for
`++symbols.info[buffer].frequency` (`operator[]` default-inserts 0). -/
def bumpFreq : List (Symbol × Nat) → Symbol → List (Symbol × Nat)
  | [], key => [(key, 1)]
  | (k, v) :: rest, key =>
      if k = key then (k, v + 1) :: rest else (k, v) :: bumpFreq rest key

/-- Loop body of `read_symbols` (src/huffer.cpp lines 137-153): read up to
`ss` bytes; a short read (`count < symbol_size`) captures the bytes just
read as `extra` and stops; a full read bumps that symbol's frequency.
`total_size` accumulates every byte read, including the short final read.
Fuel exceeds the iteration count at every call site. -/
def read_symbols_go (ss : Nat) : Nat → Symbols → List Nat → Symbols
  | 0, acc, _ => acc
  | fuel + 1, acc, input =>
      let count := min ss input.length
      let acc := { acc with total_size := acc.total_size + count }
      if count < ss then { acc with extra := input.take count }
      else read_symbols_go ss fuel
        { acc with info := bumpFreq acc.info (input.take ss) } (input.drop ss)

/-- `read_symbols(std::istream&)`: scan the whole input in `symbol_size`
chunks. -/
def read_symbols (ss : Nat) (input : List Nat) : Symbols :=
  read_symbols_go ss (input.length + 1) ⟨[], [], 0⟩ input

/-- Pop the minimum-weight node from the list standing in for the
min-`priority_queue` of `build_tree`; ties broken by taking the first
minimal element (the C++ heap's tie-break is unspecified). -/
def popMin : List Node → Option (Node × List Node)
  | [] => none
  | [n] => some (n, [])
  | n :: rest =>
      match popMin rest with
      | some (m, rest') =>
          if n.weight ≤ m.weight then some (n, rest) else some (m, n :: rest')
      | none => some (n, [])

/-- Combining loop of `build_tree` (src/huffer.cpp lines 164-199): while
the queue holds at least two nodes, pop the two lowest-weight nodes as
`left` and `right` (in pop order) and push an internal node whose weight
is their sum; the lone survivor is the root, an empty queue yields the
null tree.  Fuel is the initial queue length, which bounds the iteration
count. -/
def build_tree_go : Nat → List Node → Option Node
  | 0, heap => heap.head?
  | fuel + 1, heap =>
      if heap.length ≤ 1 then heap.head?
      else
        match popMin heap with
        | none => none
        | some (left, heap) =>
            match popMin heap with
            | none => none
            | some (right, heap) =>
                build_tree_go fuel
                  (heap ++ [Node.internal (left.weight + right.weight) left right])

/-- `build_tree(const Symbols&)`: one leaf per frequency-map entry, then
greedy min-weight combining. -/
def build_tree (info : List (Symbol × Nat)) : Option Node :=
  let heap := info.map fun p => Node.leaf p.2 p.1
  build_tree_go heap.length heap

/-- Traversal of `build_code_words` below the root: left steps append
`false`, right steps append `true`; reaching a leaf records the
accumulated prefix as its code word. -/
def code_words_go : Node → List Bool → List (Symbol × List Bool)
  | .leaf _ s, p => [(s, p)]
  | .internal _ l r, p =>
      code_words_go l (p ++ [false]) ++ code_words_go r (p ++ [true])

/-- `build_code_words(Symbols&, const Node*)` (src/huffer.cpp lines
201-248) as the code-word table it fills in: a null tree assigns nothing;
a lone-leaf root assigns that symbol the one-bit code `[false]`; otherwise
each leaf gets its root-to-leaf path. -/
def build_code_words : Option Node → List (Symbol × List Bool)
  | none => []
  | some (.leaf _ s) => [(s, [false])]
  | some t => code_words_go t []

/-- `operator<<(OutputBitStream&, const Symbol&)`: each of the symbol's
`symbol_size` bytes through the bit writer. -/
def OutputBitStream.putSymbol (w : OutputBitStream) (s : Symbol) : OutputBitStream :=
  s.foldl OutputBitStream.putChar w

/-- Pre-order serialisation of one node (`write_tree`, src/huffer.cpp
lines 372-395): a leaf is bit `1` then its symbol's bytes; an internal
node is bit `0` then the left subtree then the right subtree (the C++
stack pushes right below left to visit left first). -/
def write_tree_go : OutputBitStream → Node → OutputBitStream
  | w, .leaf _ s => (w.put true).putSymbol s
  | w, .internal _ l r => write_tree_go (write_tree_go (w.put false) l) r

/-- `write_tree(OutputBitStream&, const Node*)`: a null root writes
nothing. -/
def write_tree : OutputBitStream → Option Node → OutputBitStream
  | w, none => w
  | w, some t => write_tree_go w t

/-- The serialised bits of a tree, as a pure list (specification mirror of
`write_tree_go`, proved equal to it below). -/
def treeBitsP : Node → List Bool
  | .leaf _ s => true :: bytesToBits s
  | .internal _ l r => false :: (treeBitsP l ++ treeBitsP r)

/-- `read_tree(InputBitStream&)` (src/huffer.cpp lines 404-492): read a
tag bit; `1` is a leaf whose `symbol_size` bytes follow, `0` is an
internal node whose two subtrees follow in order.  Any stream failure
yields the null tree.  Every rebuilt node carries `weight = 0` (the field
is unused on the decode path).  Fuel bounds the recursion; each call
consumes at least one bit, and call sites pass more fuel than there are
bits. -/
def read_tree (ss : Nat) : Nat → InputBitStream → Option Node × InputBitStream
  | 0, r => (none, r)
  | fuel + 1, r =>
      match r.get with
      | (none, r) => (none, r)
      | (some true, r) =>
          match r.readSymbol ss with
          | (some sym, r) => (some (.leaf 0 sym), r)
          | (none, r) => (none, r)
      | (some false, r) =>
          match read_tree ss fuel r with
          | (none, r) => (none, r)
          | (some l, r) =>
              match read_tree ss fuel r with
              | (none, r) => (none, r)
              | (some rt, r) => (some (.internal 0 l rt), r)

/-- Result of one iteration of `main_decode`'s per-symbol loop. -/
inductive DecodeStep where
  | ok (bytes : List Nat) (r : InputBitStream)
  | streamFail (r : InputBitStream)
  | crash
deriving DecidableEq, Repr

/-- The bit-by-bit descent of `main_decode` (src/huffer.cpp lines
693-714): read one bit (failure is fatal); at a leaf — only possible for a
single-symbol alphabet — `assert(!bit)` and emit the leaf (modelled as
`crash` when the assertion fires); otherwise step to the chosen child and
emit it if it is a leaf, else keep descending. -/
def descend : Node → InputBitStream → DecodeStep
  | .leaf _ s, r =>
      match r.get with
      | (none, r) => .streamFail r
      | (some bit, r) => if bit then .crash else .ok s r
  | .internal _ l rt, r =>
      match r.get with
      | (none, r) => .streamFail r
      | (some true, r) =>
          match rt with
          | .leaf _ s => .ok s r
          | n => descend n r
      | (some false, r) =>
          match l with
          | .leaf _ s => .ok s r
          | n => descend n r

/-- One iteration of the decode loop with the tree as `main_decode` holds
it (`tree.get()` may be null when `read_tree` failed; the C++ only avoids
the null dereference because the bit read fails first, and the dereference
is modelled as `crash`). -/
def decode_one : Option Node → InputBitStream → DecodeStep
  | none, r =>
      match r.get with
      | (none, r) => .streamFail r
      | (some _, _) => .crash
  | some n, r => descend n r

/-- Outcome of the decode body loop. -/
inductive BodyResult where
  | done (r : InputBitStream) (out : List Nat)
  | fail6 (out : List Nat)
  | crash
deriving DecidableEq, Repr

/-- The decode body loop: `expanded_size / symbol_size` iterations, each
emitting one symbol's bytes; a failed bit read exits with code 6. -/
def decode_body : Nat → Option Node → InputBitStream → List Nat → BodyResult
  | 0, _, r, out => .done r out
  | n + 1, tree, r, out =>
      match decode_one tree r with
      | .ok s r => decode_body n tree r (out ++ s)
      | .streamFail _ => .fail6 out
      | .crash => .crash

/-- The trailing-`extra` copy loop of `main_decode`:
`while (bitin >> byte) out.put(byte)`.  Fuel exceeds the iteration count
at every call site (each successful byte read consumes a source byte). -/
def copy_extra : Nat → InputBitStream → List Nat → List Nat
  | 0, _, out => out
  | fuel + 1, r, out =>
      match r.readChar with
      | (none, _) => out
      | (some b, r) => copy_extra fuel r (out ++ [b])

/-- The 8-byte magic `h u f f e r 1 \0`. -/
def magic : List Nat := [104, 117, 102, 102, 101, 114, 49, 0]

/-- The 64 bits of `std::bitset<64>{n}` in the order `operator<<` emits
them (bit 0 first). -/
def bits64 (n : Nat) : List Bool := (List.range 64).map n.testBit

/-- The 3 bits of `std::bitset<3>{n}`, bit 0 first. -/
def bits3 (n : Nat) : List Bool := (List.range 3).map n.testBit

/-- Body loop of `main_encode`'s second pass: for every full
`symbol_size`-byte chunk emit its code word (`info[buffer].code_word`,
empty if the symbol were somehow absent); the short final read is the
"extra", copied verbatim one byte at a time through the bit writer.  Fuel
exceeds the iteration count at every call site. -/
def encode_body (ss : Nat) (cw : List (Symbol × List Bool)) :
    Nat → OutputBitStream → List Nat → OutputBitStream
  | 0, w, _ => w
  | fuel + 1, w, input =>
      let count := min ss input.length
      if count < ss then (input.take count).foldl OutputBitStream.putChar w
      else encode_body ss cw fuel
        (w.putBits ((List.lookup (input.take ss) cw).getD [])) (input.drop ss)

/-- `main_encode` (src/huffer.cpp lines 610-647) over an in-memory byte
source: scan symbols, build the tree and code words, write the magic, the
67-bit header (`total_size` then `symbol_size - 1`), the serialised tree,
the coded body and the verbatim extra, and let the writer's destructor
flush the final padded byte. -/
def main_encode (input : List Nat) (ss : Nat) : List Nat :=
  let syms := read_symbols ss input
  let tree := build_tree syms.info
  let cw := build_code_words tree
  let w := OutputBitStream.init
  let w := w.putBits (bits64 syms.total_size)
  let w := w.putBits (bits3 (ss - 1))
  let w := write_tree w tree
  let w := encode_body ss cw (input.length + 1) w input
  let w := w.flush_byte
  magic ++ w.out

/-- `main_decode` (src/huffer.cpp lines 649-723) over an in-memory byte
source, returning the exit code and the bytes written; `none` models the
aborting paths (a failed `assert` or the null-tree dereference), which no
reachable input triggers.  Exit codes: 1 short magic read, 2 magic
mismatch, 3/4 truncated 64-bit/3-bit header field, 5 oversized symbol
size (unreachable from 3 bits), 6 failed bit read in the body, 0 success.
A zero `total_size` returns success before any tree is read. -/
def main_decode (input : List Nat) : Option (Nat × List Nat) :=
  if input.length < 8 then some (1, [])
  else if input.take 8 ≠ magic then some (2, [])
  else
    let r := InputBitStream.init (input.drop 8)
    let (total_size, r) := r.readBitset 64
    if r.failed then some (3, [])
    else
      let (raw_ss, r) := r.readBitset 3
      if r.failed then some (4, [])
      else
        let ss := raw_ss + 1
        if ss > 8 then some (5, [])
        else if total_size = 0 then some (0, [])
        else
          let (tree, r) := read_tree ss (8 * input.length + 8) r
          let expanded := total_size - total_size % ss
          match decode_body (expanded / ss) tree r [] with
          | .crash => none
          | .fail6 out => some (6, out)
          | .done r out => some (0, copy_extra (r.source.length + 2) r out)

/-! ### Arithmetic facts about bit strings -/

theorem bitsVal_lt (p : List Bool) : bitsVal p < 2 ^ p.length := by
  induction p with
  | nil => decide
  | cons b p ih =>
      simp only [bitsVal, List.length_cons, pow_succ]
      cases b <;> simp <;> omega

theorem bitsVal_append (p q : List Bool) :
    bitsVal (p ++ q) = bitsVal p + 2 ^ p.length * bitsVal q := by
  induction p with
  | nil => simp [bitsVal]
  | cons b p ih =>
      have hc : (b :: p) ++ q = b :: (p ++ q) := rfl
      rw [hc]
      simp only [bitsVal, List.length_cons, pow_succ]
      rw [ih]
      ring

theorem byteBits_mod (b : Nat) : byteBits (b % 256) = byteBits b := by
  have h : ∀ i, i < 8 → (b % 2 ^ 8).testBit i = b.testBit i := by
    intro i hi
    rw [Nat.testBit_mod_two_pow]
    simp [hi]
  show byteBits (b % 2 ^ 8) = byteBits b
  simp only [byteBits]
  rw [h 0 (by omega), h 1 (by omega), h 2 (by omega), h 3 (by omega),
    h 4 (by omega), h 5 (by omega), h 6 (by omega), h 7 (by omega)]

set_option maxRecDepth 8192 in
theorem bitsVal_byteBits : ∀ b < 256, bitsVal (byteBits b) = b := by decide

set_option maxRecDepth 8192 in
theorem lor_two_pow_eq_add :
    ∀ a < 256, ∀ k < 8, a < 2 ^ k → a ||| 2 ^ k = a + 2 ^ k := by decide

set_option maxRecDepth 8192 in
theorem and_two_pow_testBit :
    ∀ c < 256, ∀ k < 8, decide (c &&& 2 ^ k ≠ 0) = c.testBit k := by decide

theorem byteBits_bitsVal (p : List Bool) (hp : p.length ≤ 8) :
    byteBits (bitsVal p) = p ++ List.replicate (8 - p.length) false := by
  match p, hp with
  | [], _ => decide
  | [a], _ => revert a; decide
  | [a, b], _ => revert a b; decide
  | [a, b, c], _ => revert a b c; decide
  | [a, b, c, d], _ => revert a b c d; decide
  | [a, b, c, d, e], _ => revert a b c d e; decide
  | [a, b, c, d, e, f], _ => revert a b c d e f; decide
  | [a, b, c, d, e, f, g], _ => revert a b c d e f g; decide
  | [a, b, c, d, e, f, g, h], _ => revert a b c d e f g h; decide
  | a :: b :: c :: d :: e :: f :: g :: h :: i :: rest, hp => simp at hp

theorem bytesToBits_nil : bytesToBits [] = [] := rfl

theorem bytesToBits_cons (b : Nat) (bs : List Nat) :
    bytesToBits (b :: bs) = byteBits b ++ bytesToBits bs := rfl

theorem bytesToBits_append (a b : List Nat) :
    bytesToBits (a ++ b) = bytesToBits a ++ bytesToBits b := by
  simp [bytesToBits]

theorem bytesToBits_length (bs : List Nat) :
    (bytesToBits bs).length = 8 * bs.length := by
  induction bs with
  | nil => rfl
  | cons b bs ih =>
      rw [bytesToBits_cons]
      simp only [List.length_append, ih, List.length_cons, byteBits,
        List.length_cons, List.length_nil]
      ring

theorem bitsToBytesP_cons8 (p rest : List Bool) (hp : p.length = 8) :
    bitsToBytesP (p ++ rest) = bitsVal p :: bitsToBytesP rest := by
  match p, hp with
  | [b0, b1, b2, b3, b4, b5, b6, b7], _ => rfl

theorem bitsToBytesP_short (p : List Bool) (h0 : p ≠ []) (h8 : p.length ≤ 8) :
    bitsToBytesP p = [bitsVal p] := by
  match p, h0, h8 with
  | [a], _, _ => rfl
  | [a, b], _, _ => rfl
  | [a, b, c], _, _ => rfl
  | [a, b, c, d], _, _ => rfl
  | [a, b, c, d, e], _, _ => rfl
  | [a, b, c, d, e, f], _, _ => rfl
  | [a, b, c, d, e, f, g], _, _ => rfl
  | [a, b, c, d, e, f, g, h], _, _ => rfl
  | a :: b :: c :: d :: e :: f :: g :: h :: i :: rest, _, h8 => simp at h8

theorem bytesToBits_bitsToBytesP :
    ∀ n (bs : List Bool), bs.length ≤ n →
      bytesToBits (bitsToBytesP bs) =
        bs ++ List.replicate ((8 - bs.length % 8) % 8) false := by
  intro n
  induction n with
  | zero =>
      intro bs h
      have : bs = [] := List.eq_nil_of_length_eq_zero (Nat.le_zero.mp h)
      subst this; rfl
  | succ n ih =>
      intro bs h
      match bs, h with
      | [], _ => rfl
      | [a], hh => clear hh; revert a; decide
      | [a, b], hh => clear hh; revert a b; decide
      | [a, b, c], hh => clear hh; revert a b c; decide
      | [a, b, c, d], hh => clear hh; revert a b c d; decide
      | [a, b, c, d, e], hh => clear hh; revert a b c d e; decide
      | [a, b, c, d, e, f], hh => clear hh; revert a b c d e f; decide
      | [a, b, c, d, e, f, g], hh => clear hh; revert a b c d e f g; decide
      | b0 :: b1 :: b2 :: b3 :: b4 :: b5 :: b6 :: b7 :: rest, h =>
          have hp8 : ([b0, b1, b2, b3, b4, b5, b6, b7] : List Bool).length = 8 := rfl
          have hlen : (b0 :: b1 :: b2 :: b3 :: b4 :: b5 :: b6 :: b7 :: rest).length % 8
              = rest.length % 8 := by
            simp only [List.length_cons]; omega
          rw [hlen]
          have hsplit : b0 :: b1 :: b2 :: b3 :: b4 :: b5 :: b6 :: b7 :: rest =
              [b0, b1, b2, b3, b4, b5, b6, b7] ++ rest := rfl
          rw [hsplit, bitsToBytesP_cons8 _ _ hp8, bytesToBits_cons,
            byteBits_bitsVal _ (by simp), ih rest (by simp at h; omega)]
          simp

/-! ### Refinement of `OutputBitStream` to bit strings -/

/-- Abstraction relation for the writer: `e` are the bytes already emitted
and `p` the pending bits in the accumulator (at most 8; a full accumulator
is flushed by the next `put`). -/
def OutputBitStream.rep (w : OutputBitStream) (e : List Nat) (p : List Bool) : Prop :=
  w.out = e ∧ w.current = bitsVal p ∧ w.mask = 2 ^ p.length % 256 ∧
  p.length ≤ 8 ∧ w.badB = false

/-- Pure mirror of one `put`: a full accumulator is emitted first. -/
def stepPure : List Nat × List Bool → Bool → List Nat × List Bool
  | (e, p), b => if p.length = 8 then (e ++ [bitsVal p], [b]) else (e, p ++ [b])

theorem rep_init : OutputBitStream.rep OutputBitStream.init [] [] := by
  refine ⟨rfl, rfl, rfl, by decide, rfl⟩

theorem put_rep {w e p b} (h : OutputBitStream.rep w e p) :
    OutputBitStream.rep (w.put b) (stepPure (e, p) b).1 (stepPure (e, p) b).2 := by
  obtain ⟨hout, hcur, hmask, hlen, hbad⟩ := h
  by_cases h8 : p.length = 8
  · have hm0 : w.mask = 0 := by rw [hmask, h8]; norm_num
    have hput : w.put b =
        { out := w.out ++ [w.current], current := cond b 1 0, mask := 2,
          badB := false } := by
      unfold OutputBitStream.put OutputBitStream.flush_byte
      rw [hbad, hm0]
      cases b <;> simp
    rw [hput]
    refine ⟨by simp [stepPure, h8, hout, hcur], ?_, by simp [stepPure, h8], ?_, rfl⟩
    · cases b <;> simp [stepPure, h8, bitsVal]
    · simp [stepPure, h8]
  · have hlt : p.length < 8 := by omega
    have hpow : 2 ^ p.length < 256 := by
      calc 2 ^ p.length < 2 ^ 8 := Nat.pow_lt_pow_right (by omega) hlt
        _ = 256 := by norm_num
    have hmask' : w.mask = 2 ^ p.length := by rw [hmask, Nat.mod_eq_of_lt hpow]
    have hmne : w.mask ≠ 0 := by rw [hmask']; positivity
    have hvlt : bitsVal p < 2 ^ p.length := bitsVal_lt p
    have hv256 : bitsVal p < 256 := lt_trans hvlt hpow
    have hcur' : (if b then w.current ||| w.mask else w.current) = bitsVal (p ++ [b]) := by
      rw [bitsVal_append]
      cases b
      · simp [hcur, bitsVal]
      · simp only [if_pos rfl, hcur, hmask']
        rw [lor_two_pow_eq_add (bitsVal p) hv256 p.length hlt hvlt]
        simp [bitsVal]
    have hstep : stepPure (e, p) b = (e, p ++ [b]) := by simp [stepPure, h8]
    rw [hstep]
    have hput : w.put b =
        { out := w.out, current := bitsVal (p ++ [b]),
          mask := w.mask * 2 % 256, badB := w.badB } := by
      simp only [OutputBitStream.put, hbad, Bool.false_eq_true, if_false, if_neg hmne]
      rw [hcur']
    rw [hput]
    refine ⟨hout, rfl, ?_, by simp; omega, hbad⟩
    rw [hmask']
    simp only [List.length_append, List.length_cons, List.length_nil]
    rw [pow_succ]

theorem flush_rep {w e p} (h : OutputBitStream.rep w e p) :
    (w.flush_byte).out = if p = [] then e else e ++ [bitsVal p] := by
  obtain ⟨hout, hcur, hmask, hlen, hbad⟩ := h
  have key : ∀ k, k ≤ 8 → (2 ^ k % 256 = 1 ↔ k = 0) := by decide
  by_cases hp : p = []
  · have : w.mask = 1 := by
      rw [hmask, (key p.length hlen).mpr (by simp [hp])]
    unfold OutputBitStream.flush_byte
    rw [hbad, if_neg (Bool.false_ne_true), if_pos this, hout, if_pos hp]
  · have hne : p.length ≠ 0 := by simp [hp]
    have : w.mask ≠ 1 := by
      rw [hmask]
      intro hcon
      exact hne ((key p.length hlen).mp hcon)
    unfold OutputBitStream.flush_byte
    rw [hbad, if_neg (Bool.false_ne_true), if_neg this, if_neg hp]
    simp [hout, hcur]

theorem putBits_rep :
    ∀ (bs : List Bool) {w e p}, OutputBitStream.rep w e p →
      OutputBitStream.rep (w.putBits bs)
        (bs.foldl stepPure (e, p)).1 (bs.foldl stepPure (e, p)).2 := by
  intro bs
  induction bs with
  | nil => intro w e p h; exact h
  | cons b bs ih =>
      intro w e p h
      have h' := put_rep (b := b) h
      have hr : OutputBitStream.putBits w (b :: bs) = OutputBitStream.putBits (w.put b) bs := rfl
      rw [hr]
      have := ih h'
      simpa [List.foldl_cons] using this

theorem foldl_stepPure_flush :
    ∀ (bs : List Bool) (e : List Nat) (p : List Bool), p.length ≤ 8 →
      (if (bs.foldl stepPure (e, p)).2 = [] then (bs.foldl stepPure (e, p)).1
       else (bs.foldl stepPure (e, p)).1 ++ [bitsVal (bs.foldl stepPure (e, p)).2])
      = e ++ bitsToBytesP (p ++ bs) := by
  intro bs
  induction bs with
  | nil =>
      intro e p hlen
      simp only [List.foldl_nil, List.append_nil]
      by_cases hp : p = []
      · simp [hp, bitsToBytesP]
      · rw [if_neg hp, bitsToBytesP_short p hp hlen]
  | cons b bs ih =>
      intro e p hlen
      simp only [List.foldl_cons]
      by_cases h8 : p.length = 8
      · have hstep : stepPure (e, p) b = (e ++ [bitsVal p], [b]) := by
          simp [stepPure, h8]
        rw [hstep, ih (e ++ [bitsVal p]) [b] (by simp)]
        rw [bitsToBytesP_cons8 p (b :: bs) h8]
        simp
      · have hstep : stepPure (e, p) b = (e, p ++ [b]) := by
          simp [stepPure, h8]
        rw [hstep, ih e (p ++ [b]) (by simp; omega)]
        simp

/-- Net effect of the writer on a whole bit string: write the bits from a
fresh stream, then flush (the destructor); the sink holds exactly the
LSB-first packing with a zero-padded final byte. -/
theorem writer_out (bs : List Bool) :
    ((OutputBitStream.init.putBits bs).flush_byte).out = bitsToBytesP bs := by
  have h := putBits_rep bs rep_init
  have hf := flush_rep h
  rw [hf]
  have := foldl_stepPure_flush bs [] [] (by decide)
  simpa using this

/-! ### Refinement of `InputBitStream` to bit strings -/

/-- Abstraction relation for the reader: a healthy stream state delivers
exactly the bit string `bits` — either the buffer is exhausted and the
bits are those of the remaining source bytes, or `mask = 2^k` and the
unread high bits of `current` come first. -/
def InputBitStream.rep (r : InputBitStream) (bits : List Bool) : Prop :=
  r.failB = false ∧ r.badB = false ∧ r.eofB = false ∧
  ((r.mask = 0 ∧ bits = bytesToBits r.source) ∨
   (∃ k, 1 ≤ k ∧ k ≤ 7 ∧ r.mask = 2 ^ k ∧ r.current < 256 ∧
     bits = (byteBits r.current).drop k ++ bytesToBits r.source))

theorem rep_reader_init (bytes : List Nat) :
    InputBitStream.rep (InputBitStream.init bytes) (bytesToBits bytes) :=
  ⟨rfl, rfl, rfl, Or.inl ⟨rfl, rfl⟩⟩

theorem byteBits_drop_head (c k : Nat) (h1 : 1 ≤ k) (h7 : k ≤ 7) :
    (byteBits c).drop k = c.testBit k :: (byteBits c).drop (k + 1) := by
  interval_cases k <;> simp [byteBits]

theorem byteBits_drop_eight (c : Nat) : (byteBits c).drop 8 = [] := by
  simp [byteBits]

theorem testBit_zero_mod (s : Nat) : (s % 256).testBit 0 = s.testBit 0 := by
  show (s % 2 ^ 8).testBit 0 = s.testBit 0
  rw [Nat.testBit_mod_two_pow]
  simp

theorem get_cons {r : InputBitStream} {b : Bool} {bits : List Bool}
    (h : r.rep (b :: bits)) :
    ∃ r', r.get = (some b, r') ∧ r'.rep bits := by
  obtain ⟨hfail, hbad, heof, hcase⟩ := h
  rcases hcase with ⟨hm, hbits⟩ | ⟨k, hk1, hk7, hm, hc, hbits⟩
  · match hs : r.source with
    | [] => rw [hs] at hbits; simp [bytesToBits] at hbits
    | s :: rest =>
        rw [hs, bytesToBits_cons] at hbits
        simp only [byteBits, List.cons_append, List.cons.injEq] at hbits
        obtain ⟨hb, hbits⟩ := hbits
        refine ⟨{ r with source := rest, current := s % 256, mask := 2 }, ?_, ?_⟩
        · unfold InputBitStream.get
          rw [if_pos hm, hs]
          dsimp only
          have hd : decide (s % 256 &&& 1 ≠ 0) = b := by
            have h1 := and_two_pow_testBit (s % 256) (Nat.mod_lt s (by norm_num))
              0 (by norm_num)
            simp only [pow_zero] at h1
            rw [h1, testBit_zero_mod, ← hb]
          rw [hd]
        · refine ⟨hfail, hbad, heof,
            Or.inr ⟨1, le_refl 1, by norm_num, rfl, Nat.mod_lt s (by norm_num), ?_⟩⟩
          rw [byteBits_mod]
          simp only [byteBits, List.drop_succ_cons, List.drop_zero]
          exact hbits
  · have hmne : r.mask ≠ 0 := by rw [hm]; positivity
    rw [byteBits_drop_head r.current k hk1 hk7, List.cons_append,
      List.cons.injEq] at hbits
    obtain ⟨hb, hbits⟩ := hbits
    have hbit : decide (r.current &&& r.mask ≠ 0) = b := by
      rw [hm, and_two_pow_testBit r.current hc k (by omega), ← hb]
    refine ⟨{ r with mask := r.mask * 2 % 256 }, ?_, ?_⟩
    · unfold InputBitStream.get
      rw [if_neg hmne, hbit]
    · refine ⟨hfail, hbad, heof, ?_⟩
      by_cases h7 : k = 7
      · subst h7
        refine Or.inl ⟨by rw [hm]; norm_num, ?_⟩
        rw [hbits, byteBits_drop_eight]
        simp
      · refine Or.inr ⟨k + 1, by omega, by omega, ?_, hc, hbits⟩
        rw [hm, ← pow_succ]
        exact Nat.mod_eq_of_lt (by
          calc 2 ^ (k + 1) < 2 ^ 8 := Nat.pow_lt_pow_right (by omega) (by omega)
            _ = 256 := by norm_num)

theorem get_nil {r : InputBitStream} (h : r.rep []) :
    r.mask = 0 ∧ r.source = [] ∧
      r.get = (none, { r with eofB := true, failB := true }) := by
  obtain ⟨hfail, hbad, heof, hcase⟩ := h
  rcases hcase with ⟨hm, hbits⟩ | ⟨k, hk1, hk7, hm, hc, hbits⟩
  · match hs : r.source with
    | [] =>
        refine ⟨hm, rfl, ?_⟩
        unfold InputBitStream.get
        rw [if_pos hm, hs]
    | s :: rest =>
        rw [hs, bytesToBits_cons] at hbits
        simp [byteBits] at hbits
  · exfalso
    have : ((byteBits r.current).drop k ++ bytesToBits r.source).length = 0 := by
      rw [← hbits]; rfl
    rw [List.length_append, List.length_drop] at this
    simp [byteBits] at this
    omega

theorem drain_rep :
    ∀ (bits : List Bool) (fuel : Nat) (r : InputBitStream),
      r.rep bits → bits.length < fuel → InputBitStream.drain fuel r = bits := by
  intro bits
  induction bits with
  | nil =>
      intro fuel r h hlen
      match fuel, hlen with
      | f + 1, _ =>
          obtain ⟨-, -, hget⟩ := get_nil h
          unfold InputBitStream.drain
          rw [hget]
  | cons b bits ih =>
      intro fuel r h hlen
      match fuel, hlen with
      | f + 1, hlen =>
          obtain ⟨r', hget, hrep⟩ := get_cons h
          unfold InputBitStream.drain
          rw [hget]
          dsimp only
          rw [ih f r' hrep (by simpa using hlen)]

theorem readChar_rep {r : InputBitStream} {v : Nat} {rest : List Bool}
    (h : r.rep (byteBits v ++ rest)) (hv : v < 256) :
    ∃ r', r.readChar = (some v, r') ∧ r'.rep rest := by
  simp only [byteBits, List.cons_append, List.nil_append] at h
  obtain ⟨r1, hg0, h⟩ := get_cons h
  obtain ⟨r2, hg1, h⟩ := get_cons h
  obtain ⟨r3, hg2, h⟩ := get_cons h
  obtain ⟨r4, hg3, h⟩ := get_cons h
  obtain ⟨r5, hg4, h⟩ := get_cons h
  obtain ⟨r6, hg5, h⟩ := get_cons h
  obtain ⟨r7, hg6, h⟩ := get_cons h
  obtain ⟨r8, hg7, h⟩ := get_cons h
  refine ⟨r8, ?_, h⟩
  unfold InputBitStream.readChar
  rw [hg0]; dsimp only
  rw [hg1]; dsimp only
  rw [hg2]; dsimp only
  rw [hg3]; dsimp only
  rw [hg4]; dsimp only
  rw [hg5]; dsimp only
  rw [hg6]; dsimp only
  rw [hg7]; dsimp only
  have hval : bitsVal [v.testBit 0, v.testBit 1, v.testBit 2, v.testBit 3,
      v.testBit 4, v.testBit 5, v.testBit 6, v.testBit 7] = v := by
    have := bitsVal_byteBits v hv
    simpa [byteBits] using this
  rw [hval]

set_option maxHeartbeats 1000000 in
theorem readSymbol_rep :
    ∀ (s : List Nat) {r : InputBitStream} {rest : List Bool},
      r.rep (bytesToBits s ++ rest) → (∀ b ∈ s, b < 256) →
      ∃ r', InputBitStream.readSymbol s.length r = (some s, r') ∧ r'.rep rest := by
  intro s
  induction s with
  | nil =>
      intro r rest h _
      exact ⟨r, rfl, by simpa [bytesToBits] using h⟩
  | cons b s ih =>
      intro r rest h hb
      have h' : r.rep (byteBits b ++ (bytesToBits s ++ rest)) := by
        simpa [bytesToBits_cons, List.append_assoc] using h
      obtain ⟨r1, hc, hr1⟩ := readChar_rep h' (hb b (by simp))
      obtain ⟨r2, hs, hr2⟩ := ih hr1 (fun x hx => hb x (by simp [hx]))
      refine ⟨r2, ?_, hr2⟩
      show InputBitStream.readSymbol (s.length + 1) r = (some (b :: s), r2)
      unfold InputBitStream.readSymbol
      rw [hc]; dsimp only
      rw [hs]

/-! ### Serialising and deserialising the tree -/

theorem putChar_putBits (w : OutputBitStream) (c : Nat) :
    w.putChar c = w.putBits (byteBits c) := by
  unfold OutputBitStream.putChar OutputBitStream.putBits byteBits
  rw [show List.range 8 = [0, 1, 2, 3, 4, 5, 6, 7] by rfl]
  simp only [List.foldl_cons, List.foldl_nil]

theorem putBits_append (w : OutputBitStream) (a b : List Bool) :
    w.putBits (a ++ b) = (w.putBits a).putBits b := by
  unfold OutputBitStream.putBits
  rw [List.foldl_append]

theorem putSymbol_putBits :
    ∀ (s : List Nat) (w : OutputBitStream), w.putSymbol s = w.putBits (bytesToBits s) := by
  intro s
  induction s with
  | nil => intro w; rfl
  | cons b s ih =>
      intro w
      show (w.putChar b).putSymbol s = _
      rw [ih, putChar_putBits, bytesToBits_cons, putBits_append]

theorem write_tree_go_putBits :
    ∀ (t : Node) (w : OutputBitStream), write_tree_go w t = w.putBits (treeBitsP t) := by
  intro t
  induction t with
  | leaf w0 s =>
      intro w
      show (w.put true).putSymbol s = _
      rw [putSymbol_putBits]
      rfl
  | internal w0 l rt ihl ihr =>
      intro w
      show write_tree_go (write_tree_go (w.put false) l) rt = _
      rw [ihl, ihr]
      rw [show treeBitsP (Node.internal w0 l rt)
          = false :: (treeBitsP l ++ treeBitsP rt) from rfl]
      rw [show w.putBits (false :: (treeBitsP l ++ treeBitsP rt))
          = (w.put false).putBits (treeBitsP l ++ treeBitsP rt) from rfl]
      rw [putBits_append]

theorem read_tree_rep (ss : Nat) :
    ∀ (t : Node) (fuel : Nat) (r : InputBitStream) (rest : List Bool),
      r.rep (treeBitsP t ++ rest) → t.symsOk ss = true → t.size ≤ fuel →
      ∃ r', read_tree ss fuel r = (some t.strip, r') ∧ r'.rep rest := by
  intro t
  induction t with
  | leaf w0 s =>
      intro fuel r rest h hsym hfuel
      match fuel, hfuel with
      | 0, hfuel => exact absurd hfuel (by simp [Node.size])
      | f + 1, _ =>
          have h' : r.rep (true :: (bytesToBits s ++ rest)) := by
            simpa [treeBitsP, List.append_assoc] using h
          obtain ⟨r1, hget, hr1⟩ := get_cons h'
          simp only [Node.symsOk, Bool.and_eq_true, beq_iff_eq,
            List.all_eq_true, decide_eq_true_eq] at hsym
          obtain ⟨r2, hsm, hr2⟩ := readSymbol_rep s hr1 hsym.2
          refine ⟨r2, ?_, hr2⟩
          unfold read_tree
          rw [hget]; dsimp only
          rw [← hsym.1, hsm]
          rfl

  | internal w0 l rt ihl ihr =>
      intro fuel r rest h hsym hfuel
      match fuel, hfuel with
      | 0, hfuel => exact absurd hfuel (by simp [Node.size])
      | f + 1, hfuel =>
          have h' : r.rep (false :: (treeBitsP l ++ (treeBitsP rt ++ rest))) := by
            simpa [treeBitsP, List.append_assoc] using h
          obtain ⟨r1, hget, hr1⟩ := get_cons h'
          simp only [Node.symsOk, Bool.and_eq_true] at hsym
          obtain ⟨r2, hl, hr2⟩ := ihl f r1 (treeBitsP rt ++ rest) hr1 hsym.1
            (by simp only [Node.size] at hfuel ⊢; omega)
          obtain ⟨r3, hrr, hr3⟩ := ihr f r2 rest hr2 hsym.2
            (by simp only [Node.size] at hfuel ⊢; omega)
          refine ⟨r3, ?_, hr3⟩
          unfold read_tree
          rw [hget]; dsimp only
          rw [hl]; dsimp only
          rw [hrr]
          rfl

/-! ### Invariants of `build_tree` -/

theorem popMin_cons_cons (a b : Node) (t : List Node) :
    popMin (a :: b :: t) =
      match popMin (b :: t) with
      | some (m, rest') =>
          if a.weight ≤ m.weight then some (a, b :: t) else some (m, a :: rest')
      | none => some (a, []) := by
  rfl

theorem popMin_isSome :
    ∀ l : List Node, l ≠ [] → ∃ n l', popMin l = some (n, l') := by
  intro l
  induction l with
  | nil => simp
  | cons a t ih =>
      intro _
      match t with
      | [] => exact ⟨a, [], rfl⟩
      | b :: t' =>
          obtain ⟨m, rest', hm⟩ := ih (by simp)
          rw [popMin_cons_cons, hm]
          dsimp only
          by_cases hw : a.weight ≤ m.weight
          · exact ⟨a, b :: t', by rw [if_pos hw]⟩
          · exact ⟨m, a :: rest', by rw [if_neg hw]⟩

theorem popMin_perm :
    ∀ (l : List Node) (n : Node) (l' : List Node),
      popMin l = some (n, l') → l.Perm (n :: l') := by
  intro l
  induction l with
  | nil => intro n l' h; simp [popMin] at h
  | cons a t ih =>
      intro n l' h
      match t with
      | [] =>
          have : a = n ∧ [] = l' := by
            have h' : (some (a, ([] : List Node)) : Option (Node × List Node))
                = some (n, l') := h
            simpa using h'
          obtain ⟨rfl, rfl⟩ := this
          exact List.Perm.refl _
      | b :: t' =>
          rw [popMin_cons_cons] at h
          obtain ⟨m, rest', hm⟩ := popMin_isSome (b :: t') (by simp)
          rw [hm] at h
          dsimp only at h
          by_cases hw : a.weight ≤ m.weight
          · rw [if_pos hw] at h
            have : a = n ∧ b :: t' = l' := by simpa using h
            obtain ⟨rfl, rfl⟩ := this
            exact List.Perm.refl _
          · rw [if_neg hw] at h
            have : m = n ∧ a :: rest' = l' := by simpa using h
            obtain ⟨rfl, rfl⟩ := this
            have hp := ih m rest' hm
            exact (hp.cons a).trans (List.Perm.swap m a rest')

theorem head_spec (heap : List Node) (hlen : heap.length ≤ 1)
    (hwf : ∀ n ∈ heap, n.weightsOk = true) :
    (heap.head? = none ↔ heap = []) ∧
    (∀ t, heap.head? = some t → t.weightsOk = true ∧
      t.leavesList.Perm ((heap.map Node.leavesList).flatten)) := by
  match heap, hlen with
  | [], _ =>
      refine ⟨by simp, ?_⟩
      intro t h
      simp at h
  | [n], _ =>
      refine ⟨by simp, ?_⟩
      intro u hu
      have heq : u = n := by
        simp only [List.head?_cons, Option.some.injEq] at hu
        exact hu.symm
      subst heq
      exact ⟨hwf u (by simp), by simp⟩
  | a :: b :: t, hlen => simp at hlen

theorem build_tree_go_spec :
    ∀ (fuel : Nat) (heap : List Node), heap.length ≤ fuel + 1 →
      (∀ n ∈ heap, n.weightsOk = true) →
      (build_tree_go fuel heap = none ↔ heap = []) ∧
      (∀ t, build_tree_go fuel heap = some t →
        t.weightsOk = true ∧
        t.leavesList.Perm ((heap.map Node.leavesList).flatten)) := by
  intro fuel
  induction fuel with
  | zero =>
      intro heap hlen hwf
      exact head_spec heap (by omega) hwf
  | succ f ih =>
      intro heap hlen hwf
      by_cases h1 : heap.length ≤ 1
      · unfold build_tree_go
        rw [if_pos h1]
        exact head_spec heap h1 hwf
      · have h2 : 2 ≤ heap.length := by omega
        obtain ⟨left, h1', hp1⟩ := popMin_isSome heap (by
          intro hnil; rw [hnil] at h2; simp at h2)
        have hperm1 := popMin_perm heap left h1' hp1
        have hlen1 : heap.length = h1'.length + 1 := by
          have := hperm1.length_eq
          simpa using this
        obtain ⟨right, h2', hp2⟩ := popMin_isSome h1' (by
          intro hnil; rw [hnil] at hlen1; simp at hlen1; omega)
        have hperm2 := popMin_perm h1' right h2' hp2
        have hlen2 : h1'.length = h2'.length + 1 := by
          have := hperm2.length_eq
          simpa using this
        have hmem : ∀ n ∈ h2', n ∈ heap := by
          intro n hn
          exact hperm1.mem_iff.mpr (by
            simp only [List.mem_cons]
            exact Or.inr (hperm2.mem_iff.mpr (by simp [hn])))
        have hmemL : left ∈ heap := hperm1.mem_iff.mpr (by simp)
        have hmemR : right ∈ heap := hperm1.mem_iff.mpr (by
          simp only [List.mem_cons]
          exact Or.inr (hperm2.mem_iff.mpr (by simp)))
        have hwf' : ∀ n ∈ h2' ++ [Node.internal (left.weight + right.weight) left right],
            n.weightsOk = true := by
          intro n hn
          rcases List.mem_append.mp hn with hn | hn
          · exact hwf n (hmem n hn)
          · simp only [List.mem_singleton] at hn
            subst hn
            simp [Node.weightsOk, Node.weight, hwf left hmemL, hwf right hmemR]
        have hstep : build_tree_go (f + 1) heap =
            build_tree_go f (h2' ++ [Node.internal (left.weight + right.weight) left right]) := by
          conv_lhs => unfold build_tree_go
          rw [if_neg h1, hp1]
          dsimp only
          rw [hp2]
        have hih := ih (h2' ++ [Node.internal (left.weight + right.weight) left right])
          (by simp only [List.length_append, List.length_cons, List.length_nil]; omega) hwf'
        constructor
        · rw [hstep, hih.1]
          constructor
          · intro hcon
            exact absurd hcon (by simp)
          · intro hcon
            rw [hcon] at h2
            simp at h2
        · intro t ht
          rw [hstep] at ht
          obtain ⟨htw, htp⟩ := hih.2 t ht
          refine ⟨htw, ?_⟩
          have hflat : ((h2' ++ [Node.internal (left.weight + right.weight) left right]).map
              Node.leavesList).flatten
              = (h2'.map Node.leavesList).flatten ++ (left.leavesList ++ right.leavesList) := by
            simp [Node.leavesList]
          have hchain : heap.Perm (left :: right :: h2') :=
            hperm1.trans (hperm2.cons left)
          have hflat2 : ((left :: right :: h2').map Node.leavesList).flatten
              = left.leavesList ++ right.leavesList ++ (h2'.map Node.leavesList).flatten := by
            simp [List.append_assoc]
          have s1 : t.leavesList.Perm
              ((h2'.map Node.leavesList).flatten ++ (left.leavesList ++ right.leavesList)) :=
            hflat ▸ htp
          have s2 : ((h2'.map Node.leavesList).flatten
                ++ (left.leavesList ++ right.leavesList)).Perm
              ((left.leavesList ++ right.leavesList) ++ (h2'.map Node.leavesList).flatten) :=
            List.perm_append_comm
          have s3 : (left.leavesList ++ right.leavesList) ++ (h2'.map Node.leavesList).flatten
              = ((left :: right :: h2').map Node.leavesList).flatten := by
            rw [hflat2, List.append_assoc]
          have s4 : ((left.leavesList ++ right.leavesList)
                ++ (h2'.map Node.leavesList).flatten).Perm
              ((heap.map Node.leavesList).flatten) := by
            rw [s3]
            exact ((hchain.map Node.leavesList).flatten).symm
          exact (s1.trans s2).trans s4

theorem map_leaf_flatten (info : List (Symbol × Nat)) :
    (((info.map fun p => Node.leaf p.2 p.1).map Node.leavesList)).flatten
      = info.map Prod.fst := by
  induction info with
  | nil => rfl
  | cons p t ih =>
      simp only [List.map_cons, List.flatten_cons, Node.leavesList]
      rw [ih]
      simp

/-! ### Invariants of `read_symbols` -/

theorem bumpFreq_sum (info : List (Symbol × Nat)) (k : Symbol) :
    ((bumpFreq info k).map Prod.snd).sum = (info.map Prod.snd).sum + 1 := by
  induction info with
  | nil => rfl
  | cons p t ih =>
      by_cases hk : p.1 = k
      · simp [bumpFreq, hk]
        omega
      · simp [bumpFreq, hk, ih]
        omega

theorem bumpFreq_pos (info : List (Symbol × Nat)) (k : Symbol)
    (h : ∀ p ∈ info, 1 ≤ p.2) : ∀ p ∈ bumpFreq info k, 1 ≤ p.2 := by
  induction info with
  | nil =>
      intro p hp
      simp only [bumpFreq, List.mem_singleton] at hp
      subst hp
      simp
  | cons q t ih =>
      intro p hp
      by_cases hk : q.1 = k
      · simp only [bumpFreq, if_pos hk, List.mem_cons] at hp
        rcases hp with hp | hp
        · subst hp; simp
        · exact h p (by simp [hp])
      · simp only [bumpFreq, if_neg hk, List.mem_cons] at hp
        rcases hp with hp | hp
        · subst hp; exact h q (by simp)
        · exact ih (fun x hx => h x (by simp [hx])) p hp

theorem read_symbols_go_spec (ss : Nat) (hss : 1 ≤ ss) :
    ∀ (fuel : Nat) (input : List Nat) (acc : Symbols), input.length < fuel →
      (read_symbols_go ss fuel acc input).total_size = acc.total_size + input.length ∧
      (read_symbols_go ss fuel acc input).extra.length = input.length % ss ∧
      (((read_symbols_go ss fuel acc input).info.map Prod.snd).sum
        = (acc.info.map Prod.snd).sum + input.length / ss) ∧
      ((∀ p ∈ acc.info, 1 ≤ p.2) →
        ∀ p ∈ (read_symbols_go ss fuel acc input).info, 1 ≤ p.2) := by
  intro fuel
  induction fuel with
  | zero => intro input acc h; exact absurd h (Nat.not_lt_zero _)
  | succ f ih =>
      intro input acc h
      by_cases hshort : input.length < ss
      · have hcount : min ss input.length = input.length := by omega
        have hlt : min ss input.length < ss := by omega
        have hgo : read_symbols_go ss (f + 1) acc input =
            { acc with total_size := acc.total_size + min ss input.length,
                       extra := input.take (min ss input.length) } := by
          unfold read_symbols_go
          rw [if_pos hlt]
        rw [hgo]
        refine ⟨by simp [hcount], ?_, by simp [Nat.div_eq_of_lt hshort], fun hp => hp⟩
        rw [hcount, List.take_length, Nat.mod_eq_of_lt hshort]
      · have hge : ss ≤ input.length := by omega
        have hcount : min ss input.length = ss := by omega
        have hnlt : ¬ min ss input.length < ss := by omega
        have hgo : read_symbols_go ss (f + 1) acc input =
            read_symbols_go ss f
              { acc with total_size := acc.total_size + min ss input.length,
                         info := bumpFreq acc.info (input.take ss) }
              (input.drop ss) := by
          conv_lhs => unfold read_symbols_go
          dsimp only
          rw [if_neg hnlt]
        obtain ⟨m, hm⟩ : ∃ m, input.length = ss + m := ⟨input.length - ss, by omega⟩
        have hdrop : (input.drop ss).length = m := by simp [hm]
        have hih := ih (input.drop ss)
          { acc with total_size := acc.total_size + min ss input.length,
                     info := bumpFreq acc.info (input.take ss) }
          (by rw [hdrop]; omega)
        rw [hgo]
        obtain ⟨ih1, ih2, ih3, ih4⟩ := hih
        refine ⟨?_, ?_, ?_, ?_⟩
        · rw [ih1]
          simp only [hcount, hm, hdrop]
          omega
        · rw [ih2, hdrop, hm, Nat.add_mod_left]
        · rw [ih3]
          simp only [bumpFreq_sum, hdrop, hm]
          rw [Nat.add_comm ss m, Nat.add_div_right m hss]
          omega
        · intro hp
          exact ih4 (bumpFreq_pos acc.info (input.take ss) hp)

/-! ### Sticky failure of the reader -/

/-- Invariant of every reachable reader state: `bad` is never set by the
pure source, and a set `fail` flag can only have come from hitting the end
of the source with an empty bit buffer. -/
def stickyInv (r : InputBitStream) : Prop :=
  r.badB = false ∧
  (r.failB = true → r.eofB = true ∧ r.mask = 0 ∧ r.source = [])

theorem stickyInv_get {r : InputBitStream} (h : stickyInv r) :
    stickyInv (r.get).2 := by
  obtain ⟨hbad, hfail⟩ := h
  unfold InputBitStream.get
  by_cases hm : r.mask = 0
  · rw [if_pos hm]
    match hs : r.source with
    | [] => exact ⟨hbad, fun _ => ⟨rfl, hm, rfl⟩⟩
    | b :: rest =>
        dsimp only
        refine ⟨hbad, ?_⟩
        intro hf
        have := hfail hf
        rw [hs] at this
        exact absurd this.2.2 (by simp)
  · rw [if_neg hm]
    refine ⟨hbad, ?_⟩
    intro hf
    exact absurd ((hfail hf).2.1) hm

theorem stickyInv_getN (bytes : List Nat) :
    ∀ n : Nat, stickyInv ((InputBitStream.init bytes).getN n) := by
  have hstep : ∀ (n : Nat) (r : InputBitStream), stickyInv r → stickyInv (r.getN n) := by
    intro n
    induction n with
    | zero => intro r h; exact h
    | succ k ih =>
        intro r h
        exact ih (r.get).2 (stickyInv_get h)
  intro n
  exact hstep n _ ⟨rfl, fun h => by simp [InputBitStream.init] at h⟩

theorem failed_get_noop {r : InputBitStream} (h : stickyInv r)
    (hf : r.failB = true ∨ r.badB = true) : r.get = (none, r) := by
  obtain ⟨hbad, hfail⟩ := h
  have hf' : r.failB = true := by
    rcases hf with hf | hf
    · exact hf
    · rw [hbad] at hf; exact absurd hf (by simp)
  obtain ⟨heof, hm, hs⟩ := hfail hf'
  obtain ⟨src, cur, msk, eo, fl, bd⟩ := r
  simp only at hbad heof hm hs hf'
  subst hbad heof hm hs hf'
  rfl

/-! ### The claims -/

/-- C1: the claimed universal round-trip `decode(encode(X, symbol_size)) = X`
fails on the code.  For `X = "a"` (one byte `97`) and `symbol_size = 2`
there is no full symbol, so the encoder writes no tree; the decoder
nevertheless deserialises a tree whenever `total_size > 0`, consuming the
verbatim tail's bits, failing, and silently dropping the tail: decoding
the encoding of `[97]` succeeds (exit 0) with empty output instead of
restoring `[97]`. -/
theorem c1_roundtrip_fails_on_partial_tail :
    main_decode (main_encode [97] 2) = some (0, []) ∧
    main_decode (main_encode [97] 2) ≠ some (0, [97]) := by
  constructor
  · rfl
  · decide

/-- C2: for a single-symbol alphabet (the root is a leaf) the code-word
assigner gives that symbol the one-bit code `[false]`, and for each coded
occurrence the decoder consumes exactly one bit: on a `0` bit it emits the
symbol's bytes and the stream advances past exactly that one bit; on a `1`
bit the `assert(!bit)` fires (modelled as `crash`). -/
theorem c2_single_symbol (w : Nat) (s : Symbol) (r : InputBitStream)
    (bits : List Bool) :
    build_code_words (some (Node.leaf w s)) = [(s, [false])] ∧
    (r.rep (false :: bits) →
      ∃ r', decode_one (some (Node.leaf w s)) r = DecodeStep.ok s r' ∧ r'.rep bits) ∧
    (r.rep (true :: bits) → decode_one (some (Node.leaf w s)) r = DecodeStep.crash) := by
  refine ⟨rfl, ?_, ?_⟩
  · intro h
    obtain ⟨r', hget, hrep⟩ := get_cons h
    refine ⟨r', ?_, hrep⟩
    show descend (Node.leaf w s) r = _
    unfold descend
    rw [hget]
    rfl
  · intro h
    obtain ⟨r', hget, hrep⟩ := get_cons h
    show descend (Node.leaf w s) r = _
    unfold descend
    rw [hget]
    rfl

/-- Witness for C2 at a concrete stream (a single zero byte). -/
theorem c2_witness :
    build_code_words (some (Node.leaf 0 [97])) = [([97], [false])] ∧
    (∃ r', decode_one (some (Node.leaf 0 [97])) (InputBitStream.init [0])
        = DecodeStep.ok [97] r' ∧ r'.rep (List.replicate 7 false)) := by
  obtain ⟨h1, h2, h3⟩ := c2_single_symbol 0 [97] (InputBitStream.init [0])
    (List.replicate 7 false)
  refine ⟨h1, h2 ⟨rfl, rfl, rfl, Or.inl ⟨rfl, by decide⟩⟩⟩

/-- C3, counterexample to the claim as stated: the compressed size of the
empty input is not 9 bytes — it is 17 (the 8-byte magic plus the 9 bytes
holding the padded 67-bit header). -/
theorem c3_counterexample :
    (main_encode [] 1).length ≠ 9 ∧ (main_encode [] 1).length = 17 := by
  constructor
  · decide
  · rfl

/-- C3, amended: encoding the empty input with any `symbol_size` in 1..8
produces exactly the 8-byte magic plus the 67-bit header (64 zero bits of
`total_size`, then the 3 bits of `symbol_size - 1`) zero-padded to 9
bytes — 8 zero bytes and the byte `symbol_size - 1` — for a total
compressed size of 17 bytes; decoding that output yields the empty
string with exit code 0. -/
theorem c3_empty_input (ss : Nat) (h1 : 1 ≤ ss) (h8 : ss ≤ 8) :
    main_encode [] ss = magic ++ (List.replicate 8 0 ++ [ss - 1]) ∧
    (main_encode [] ss).length = 17 ∧
    main_decode (main_encode [] ss) = some (0, []) := by
  interval_cases ss <;> exact ⟨by rfl, by rfl, by rfl⟩

/-- Witness for C3 at `symbol_size = 1`. -/
theorem c3_witness :
    main_encode [] 1 = magic ++ (List.replicate 8 0 ++ [1 - 1]) ∧
    (main_encode [] 1).length = 17 ∧
    main_decode (main_encode [] 1) = some (0, []) :=
  c3_empty_input 1 (by decide) (by decide)

/-- C4: serialising any non-empty tree with `write_tree` (starting from a
fresh bit writer, released afterwards) and deserialising the resulting
bytes with `read_tree` rebuilds the tree exactly up to the weights (which
the deserialiser zeroes): same shape, same leaf symbol at every position.
The hypotheses ask that every leaf symbol consist of `symbol_size` byte
values and that the deserialiser's fuel bound covers the node count. -/
theorem c4_tree_roundtrip (t : Node) (ss fuel : Nat)
    (hsym : t.symsOk ss = true) (hfuel : t.size ≤ fuel) :
    ∃ r', read_tree ss fuel
        (InputBitStream.init ((write_tree OutputBitStream.init (some t)).flush_byte.out))
      = (some t.strip, r') := by
  have hw : write_tree OutputBitStream.init (some t)
      = OutputBitStream.init.putBits (treeBitsP t) := write_tree_go_putBits t _
  rw [hw, writer_out]
  have hrep := rep_reader_init (bitsToBytesP (treeBitsP t))
  have hbits : bytesToBits (bitsToBytesP (treeBitsP t))
      = treeBitsP t ++ List.replicate ((8 - (treeBitsP t).length % 8) % 8) false :=
    bytesToBits_bitsToBytesP (treeBitsP t).length (treeBitsP t) (le_refl _)
  rw [hbits] at hrep
  obtain ⟨r', hr, -⟩ := read_tree_rep ss t fuel _ _ hrep hsym hfuel
  exact ⟨r', hr⟩

/-- Witness for C4 at a two-leaf tree with one-byte symbols. -/
theorem c4_witness :
    (Node.internal 3 (Node.leaf 1 [97]) (Node.leaf 2 [98])).symsOk 1 = true ∧
    ∃ r', read_tree 1 3 (InputBitStream.init ((write_tree OutputBitStream.init
        (some (Node.internal 3 (Node.leaf 1 [97]) (Node.leaf 2 [98])))).flush_byte.out))
      = (some (Node.internal 3 (Node.leaf 1 [97]) (Node.leaf 2 [98])).strip, r') :=
  ⟨by decide, c4_tree_roundtrip _ 1 3 (by decide) (by decide)⟩

/-- C5: writing any finite bit sequence through the bit writer, releasing
the writer (which zero-pads the final partial byte), and then reading the
produced bytes bit by bit with the bit reader yields exactly the original
bit sequence followed only by the zero pad bits — reader after writer is
the identity, LSB-first within each byte. -/
theorem c5_reader_writer_identity (bs : List Bool) :
    InputBitStream.drain
        (8 * ((OutputBitStream.init.putBits bs).flush_byte.out).length + 1)
        (InputBitStream.init ((OutputBitStream.init.putBits bs).flush_byte.out))
      = bs ++ List.replicate ((8 - bs.length % 8) % 8) false := by
  rw [writer_out]
  have hrep := rep_reader_init (bitsToBytesP bs)
  have hbits : bytesToBits (bitsToBytesP bs)
      = bs ++ List.replicate ((8 - bs.length % 8) % 8) false :=
    bytesToBits_bitsToBytesP bs.length bs (le_refl _)
  rw [hbits] at hrep
  apply drain_rep _ _ _ hrep
  have hl : (bs ++ List.replicate ((8 - bs.length % 8) % 8) false).length
      = 8 * (bitsToBytesP bs).length := by
    rw [← hbits, bytesToBits_length]
  omega

/-- C6: the tree built from a frequency map satisfies the claimed
invariants — every internal node's weight is the sum of its children's
weights; the multiset of leaf symbols equals the map's key set (stated as
a permutation of the key list); the tree is empty iff the map is empty, a
lone leaf iff the map has exactly one key, and for two or more keys the
root is an internal node (children of internal nodes are intrinsically
two and non-null in the `Node` type). -/
theorem c6_build_tree_invariants (info : List (Symbol × Nat)) :
    (build_tree info = none ↔ info = []) ∧
    (∀ t, build_tree info = some t →
      t.weightsOk = true ∧ t.leavesList.Perm (info.map Prod.fst)) ∧
    ((∃ w s, build_tree info = some (Node.leaf w s)) ↔ info.length = 1) ∧
    (2 ≤ info.length → ∃ w l r, build_tree info = some (Node.internal w l r)) := by
  have hwf : ∀ n ∈ (info.map fun p => Node.leaf p.2 p.1), n.weightsOk = true := by
    intro n hn
    simp only [List.mem_map] at hn
    obtain ⟨p, -, rfl⟩ := hn
    rfl
  have hspec := build_tree_go_spec (info.map fun p => Node.leaf p.2 p.1).length
    (info.map fun p => Node.leaf p.2 p.1) (by omega) hwf
  have hbt : build_tree info = build_tree_go (info.map fun p => Node.leaf p.2 p.1).length
      (info.map fun p => Node.leaf p.2 p.1) := rfl
  have hP1 : build_tree info = none ↔ info = [] := by
    rw [hbt, hspec.1]
    simp
  have hP2 : ∀ t, build_tree info = some t →
      t.weightsOk = true ∧ t.leavesList.Perm (info.map Prod.fst) := by
    intro t ht
    rw [hbt] at ht
    obtain ⟨h1, h2⟩ := hspec.2 t ht
    rw [map_leaf_flatten] at h2
    exact ⟨h1, h2⟩
  refine ⟨hP1, hP2, ⟨?_, ?_⟩, ?_⟩
  · rintro ⟨w, s, hs⟩
    have hperm := (hP2 _ hs).2
    have hlen := hperm.length_eq
    simp only [Node.leavesList, List.length_cons, List.length_nil,
      List.length_map] at hlen
    omega
  · intro hlen
    match info, hlen with
    | [p], _ => exact ⟨p.2, p.1, rfl⟩
    | [], hlen => simp at hlen
    | a :: b :: t, hlen => simp at hlen
  · intro h2
    match hbt2 : build_tree info with
    | none =>
        exfalso
        have := hP1.mp hbt2
        rw [this] at h2
        simp at h2
    | some (.leaf w s) =>
        exfalso
        have hperm := (hP2 _ hbt2).2
        have hlen := hperm.length_eq
        simp only [Node.leavesList, List.length_cons, List.length_nil,
          List.length_map] at hlen
        omega
    | some (.internal w l r) => exact ⟨w, l, r, rfl⟩

/-- Witness for C6 at a two-key frequency map. -/
theorem c6_witness :
    2 ≤ ([([97], 2), ([98], 1)] : List (Symbol × Nat)).length ∧
    ∃ w l r, build_tree [([97], 2), ([98], 1)] = some (Node.internal w l r) :=
  ⟨by decide, (c6_build_tree_invariants [([97], 2), ([98], 1)]).2.2.2 (by decide)⟩

/-- C7: in every reader state reachable from a fresh stream, once `fail`
or `bad` is set a further `get` is a no-op returning failure — it yields
no bit and leaves the state (including the remaining source) exactly
unchanged. -/
theorem c7_sticky_failure (bytes : List Nat) (n : Nat)
    (h : ((InputBitStream.init bytes).getN n).failed = true) :
    ((InputBitStream.init bytes).getN n).get
      = (none, (InputBitStream.init bytes).getN n) := by
  apply failed_get_noop (stickyInv_getN bytes n)
  unfold InputBitStream.failed at h
  simpa [Bool.or_eq_true] using h

/-- Witness for C7: one read past the end of an empty source sets `fail`,
and the next read is a no-op. -/
theorem c7_witness :
    ((InputBitStream.init []).getN 1).failed = true ∧
    ((InputBitStream.init []).getN 1).get = (none, (InputBitStream.init []).getN 1) :=
  ⟨by decide, c7_sticky_failure [] 1 (by decide)⟩

/-- Input whose bit stream ends inside the 64-bit size field. -/
def hdrTrunc64 : List Nat := magic ++ [0]

/-- Input whose bit stream ends between the size field and the 3-bit
symbol-size field. -/
def hdrTrunc3 : List Nat := magic ++ [1, 0, 0, 0, 0, 0, 0, 0]

/-- Input with a valid header (`total_size = 1`, `symbol_size = 1`) whose
tree bits are only zero padding: the deserialiser keeps opening internal
nodes and hits end of input, a malformed-tree failure. -/
def malformedTree : List Nat := magic ++ [1, 0, 0, 0, 0, 0, 0, 0, 0]

/-- Input with a valid header (`total_size = 1`, `symbol_size = 1`) and a
valid three-leaf tree that ends exactly on a byte boundary, so the body
has no bits at all: a truncated-body failure after a good tree. -/
def truncatedBody : List Nat :=
  magic ++ bitsToBytesP (bits64 1 ++ bits3 0 ++ treeBitsP
    (Node.internal 0 (Node.internal 0 (Node.leaf 0 [97]) (Node.leaf 0 [98]))
      (Node.leaf 0 [99])))

/-- C8, counterexample to the claim as stated: the malformed-tree failure
class and the truncated-body failure class do not get distinct exit
codes — `malformedTree` (where `read_tree` fails and returns the null
tree) and `truncatedBody` (where `read_tree` succeeds and the body bit
read fails) both exit with code 6. -/
theorem c8_counterexample :
    (read_tree 1 (8 * malformedTree.length + 8)
        ((InputBitStream.init (malformedTree.drop 8)).getN 67)).1 = none ∧
    main_decode malformedTree = some (6, []) ∧
    (read_tree 1 (8 * truncatedBody.length + 8)
        ((InputBitStream.init (truncatedBody.drop 8)).getN 67)).1
      = some (Node.internal 0 (Node.internal 0 (Node.leaf 0 [97]) (Node.leaf 0 [98]))
          (Node.leaf 0 [99])) ∧
    main_decode truncatedBody = some (6, []) := by
  exact ⟨by rfl, by rfl, by rfl, by rfl⟩

/-- C8, amended: the decoder maps bad magic, a truncated 64-bit size
field, and a truncated 3-bit symbol-size field to the distinct exit codes
2, 3 and 4, but it does not distinguish a malformed tree from a truncated
body: both exit with code 6. -/
theorem c8_exit_codes :
    main_decode [104, 117, 102, 102, 101, 114, 50, 0] = some (2, []) ∧
    main_decode hdrTrunc64 = some (3, []) ∧
    main_decode hdrTrunc3 = some (4, []) ∧
    main_decode malformedTree = some (6, []) ∧
    main_decode truncatedBody = some (6, []) := by
  exact ⟨by rfl, by rfl, by rfl, by rfl, by rfl⟩

/-- C9: every input of at least 8 bytes whose first 8 bytes differ from
the magic `h u f f e r 1 \x5c0` makes `main_decode` fail with the
bad-magic exit code 2 and write no bytes to the output sink. -/
theorem c9_bad_magic (input : List Nat) (hlen : 8 ≤ input.length)
    (hm : input.take 8 ≠ magic) : main_decode input = some (2, []) := by
  unfold main_decode
  rw [if_neg (by omega), if_pos hm]

/-- Witness for C9 at the spec's example input `h u f f e r 2 \x5c0`. -/
theorem c9_witness :
    8 ≤ ([104, 117, 102, 102, 101, 114, 50, 0] : List Nat).length ∧
    main_decode [104, 117, 102, 102, 101, 114, 50, 0] = some (2, []) :=
  ⟨by decide, c9_bad_magic [104, 117, 102, 102, 101, 114, 50, 0] (by decide) (by decide)⟩

/-- C10: for every input and every `symbol_size` in 1..8, the `Symbols`
value returned by `read_symbols` satisfies: the extra tail is strictly
shorter than `symbol_size` and its length is `total_size mod symbol_size`;
`total_size` equals `symbol_size` times the sum of all recorded
frequencies plus the tail's length; and every recorded frequency is at
least 1. -/
theorem c10_read_symbols_invariants (input : List Nat) (ss : Nat)
    (h1 : 1 ≤ ss) (h8 : ss ≤ 8) :
    (read_symbols ss input).extra.length < ss ∧
    (read_symbols ss input).extra.length = (read_symbols ss input).total_size % ss ∧
    (read_symbols ss input).total_size
      = ss * ((read_symbols ss input).info.map Prod.snd).sum
        + (read_symbols ss input).extra.length ∧
    (∀ p ∈ (read_symbols ss input).info, 1 ≤ p.2) := by
  obtain ⟨ht, he, hs, hp⟩ := read_symbols_go_spec ss h1 (input.length + 1) input
    ⟨[], [], 0⟩ (by omega)
  have hrs : read_symbols ss input
      = read_symbols_go ss (input.length + 1) ⟨[], [], 0⟩ input := rfl
  rw [hrs]
  dsimp only at ht he hs
  refine ⟨?_, ?_, ?_, hp (by intro p hp'; simp at hp')⟩
  · rw [he]
    exact Nat.mod_lt _ (by omega)
  · rw [he, ht]
    simp
  · rw [ht, hs, he]
    simp only [List.map_nil, List.sum_nil, Nat.zero_add]
    exact (Nat.div_add_mod input.length ss).symm

/-- Witness for C10 at a three-byte input and `symbol_size = 2`. -/
theorem c10_witness :
    (read_symbols 2 [97, 98, 99]).extra.length < 2 ∧
    (read_symbols 2 [97, 98, 99]).extra.length
      = (read_symbols 2 [97, 98, 99]).total_size % 2 ∧
    (read_symbols 2 [97, 98, 99]).total_size
      = 2 * ((read_symbols 2 [97, 98, 99]).info.map Prod.snd).sum
        + (read_symbols 2 [97, 98, 99]).extra.length ∧
    (∀ p ∈ (read_symbols 2 [97, 98, 99]).info, 1 ≤ p.2) :=
  c10_read_symbols_invariants [97, 98, 99] 2 (by decide) (by decide)

end Huffer
